import Mathlib

/-!
Verification development for the metadata layout / build / search / reference
subsystem of lib/IRGen/GenMeta.cpp.  The C++ is shallowly embedded: canonical
types become an inductive `Ty`, external ABI oracles (result-convention and
abstraction-difference queries implemented outside this file's source) become
record fields of `AbstractionOracle`, IR values become `Val`, and assertion
failures become `Option.none`.
-/

namespace GenMeta

/-- Model of Swift canonical types (CanType) as consumed by GenMeta.cpp.
`nominal` is a NominalType of a non-generic declaration, `boundGeneric` a
BoundGenericType of a generic declaration; `isClass` tells whether the
declaration is a ClassDecl and `clangNode` whether it was imported (its
`hasClangNode`).  `arch` is an ArchetypeType, `leaf` an opaque builtin
type, and `unsupported` stands for the type shapes the resolver reports
as unimplemented (module, polymorphic function, dependent member, ...). -/
inductive Ty where
  | nominal (id : Nat) (isClass : Bool) (clangNode : Bool)
  | boundGeneric (id : Nat) (isClass : Bool) (clangNode : Bool) (args : List Ty)
  | tuple (elts : List Ty)
  | fn (inp out : Ty)
  | arch (id : Nat)
  | meta (inst : Ty)
  | leaf (id : Nat)
  | unsupported (id : Nat)
  deriving Repr

mutual

/-- Structural equality of canonical types, modelling the pointer equality
of uniqued CanTypes used throughout the source. -/
def Ty.beq : Ty → Ty → Bool
  | .nominal i c g, .nominal i2 c2 g2 => i == i2 && c == c2 && g == g2
  | .boundGeneric i c g as, .boundGeneric i2 c2 g2 bs =>
      i == i2 && c == c2 && g == g2 && Ty.beqList as bs
  | .tuple as, .tuple bs => Ty.beqList as bs
  | .fn a r, .fn a2 r2 => Ty.beq a a2 && Ty.beq r r2
  | .arch i, .arch i2 => i == i2
  | .meta a, .meta b => Ty.beq a b
  | .leaf i, .leaf i2 => i == i2
  | .unsupported i, .unsupported i2 => i == i2
  | _, _ => false

/-- Elementwise structural equality of type lists. -/
def Ty.beqList : List Ty → List Ty → Bool
  | [], [] => true
  | a :: as, b :: bs => Ty.beq a b && Ty.beqList as bs
  | _, _ => false

end

/-- External ABI oracles used by the override-compatibility checker:
`requiresIndirectResult` is IRGenModule::requiresIndirectResult and the two
`differsByAbstraction` functions live in GenPoly; all three are outside
GenMeta.cpp and are treated as opaque inputs.  The `Nat` argument models
the ExplosionKind level. -/
structure AbstractionOracle where
  requiresIndirectResult : Ty → Nat → Bool
  differsByAbstractionInExplosion : Ty → Ty → Nat → Bool
  differsByAbstractionInMemory : Ty → Ty → Bool

mutual

/-- IsIncompatibleOverride::visit from GenMeta.cpp: returns whether the
(overridden, override) pair of types differs in a way that breaks the
calling convention.  Class and bound-generic-class positions are always
compatible (covariant substitution), tuples are checked elementwise, and
every other difference is referred to the abstraction-difference oracle
(visitType).  A failing cast (tuple against non-tuple, or mismatched
tuple lengths, both asserted in the source) is `none`. -/
def isIncompatVisit (igm : AbstractionOracle) (lvl : Nat) (asExp : Bool) :
    Ty → Ty → Option Bool
  | overridden, override =>
    if Ty.beq override overridden then some false
    else
      match overridden, override with
      | .nominal _ true _, _ => some false
      | .boundGeneric _ true _ _, _ => some false
      | .tuple es, .tuple os =>
          if es.length = os.length then isIncompatVisitList igm lvl asExp es os
          else none
      | .tuple _, _ => none
      | od, ov =>
          some (if asExp then igm.differsByAbstractionInExplosion od ov lvl
                else igm.differsByAbstractionInMemory od ov)

/-- Elementwise tuple traversal of IsIncompatibleOverride::visitTupleType:
any incompatible element makes the tuples incompatible. -/
def isIncompatVisitList (igm : AbstractionOracle) (lvl : Nat) (asExp : Bool) :
    List Ty → List Ty → Option Bool
  | [], _ => some false
  | _ :: _, [] => some false
  | a :: as, b :: bs =>
      match isIncompatVisit igm lvl asExp a b with
      | none => none
      | some true => some true
      | some false => isIncompatVisitList igm lvl asExp as bs

end

/-- isIncompatibleOverrideArgument from GenMeta.cpp: visits with the
explosion (register) convention. -/
def isIncompatibleOverrideArgument (igm : AbstractionOracle) (lvl : Nat)
    (overrideTy overriddenTy : Ty) : Option Bool :=
  isIncompatVisit igm lvl true overriddenTy overrideTy

/-- isIncompatibleOverrideResult from GenMeta.cpp.  If the overridden result
is direct, the override result must also be direct (asserted; `none` if
violated) and the pair is compared as an explosion; if the overridden result
is indirect but the override result is direct, the pair is immediately
incompatible; if both are indirect they are compared in memory. -/
def isIncompatibleOverrideResult (igm : AbstractionOracle) (lvl : Nat)
    (overrideTy overriddenTy : Ty) : Option Bool :=
  if Ty.beq overrideTy overriddenTy then some false
  else if !(igm.requiresIndirectResult overriddenTy lvl) then
    if igm.requiresIndirectResult overrideTy lvl then none
    else isIncompatVisit igm lvl true overriddenTy overrideTy
  else if !(igm.requiresIndirectResult overrideTy lvl) then some true
  else isIncompatVisit igm lvl false overriddenTy overrideTy

/-- Loop body of isCompatibleOverride from GenMeta.cpp.  The fuel is the
number of curried parameter lists still to peel (the source runs its loop
uncurryLevel + 1 times); at each level equal types are immediately
compatible, incompatible arguments immediately incompatible.  When the fuel
is exhausted the source returns the value of isIncompatibleOverrideResult
directly, without negation, which is embedded verbatim here.  Peeling a
non-function type (a failed cast to AnyFunctionType) is `none`. -/
def compatLoop (igm : AbstractionOracle) (lvl : Nat) :
    Nat → Ty → Ty → Option Bool
  | 0, overrideTy, overriddenTy =>
      isIncompatibleOverrideResult igm lvl overrideTy overriddenTy
  | n + 1, overrideTy, overriddenTy =>
      if Ty.beq overrideTy overriddenTy then some true
      else
        match overrideTy, overriddenTy with
        | .fn i1 r1, .fn i2 r2 =>
            match isIncompatibleOverrideArgument igm lvl i1 i2 with
            | none => none
            | some true => some false
            | some false => compatLoop igm lvl n r1 r2
        | _, _ => none

/-- Model of a FuncDecl: its (curried function) type, whether its declaration
context is a class and whether that class has a Clang node (`none` when the
context is not a class at all), and the declaration it directly overrides. -/
inductive FD where
  | mk (ty : Ty) (classClangNode : Option Bool) (overridden : Option FD)
  deriving Repr

/-- The method's type. -/
def FD.ty : FD → Ty
  | .mk t _ _ => t

/-- The method this method directly overrides, if any (getOverriddenDecl). -/
def FD.overriddenDecl : FD → Option FD
  | .mk _ _ o => o

/-- The full override chain of a method, closest-derived ancestor first. -/
def FD.chain : FD → List FD
  | .mk _ _ none => []
  | .mk _ _ (some g) => g :: g.chain

/-- hasKnownVTableEntry from GenMeta.cpp: a method not inside a class never
has a vtable entry; a method of a class has one exactly when the class has
no Clang node (hasKnownSwiftImplementation). -/
def hasKnownVTableEntry : FD → Bool
  | .mk _ none _ => false
  | .mk _ (some clang) _ => !clang

/-- isCompatibleOverride from GenMeta.cpp, on the two declarations' types. -/
def isCompatibleOverride (igm : AbstractionOracle) (lvl : Nat)
    (override overridden : FD) (uncurry : Nat) : Option Bool :=
  compatLoop igm lvl (uncurry + 1) override.ty overridden.ty

/-- The do-while walk of doesMethodRequireOverrideEntry, starting from a
non-null overridden declaration: a missing vtable entry answers true at
once, a compatible ancestor answers false at once, and exhausting the chain
answers true. -/
def overrideEntryLoop (igm : AbstractionOracle) (lvl : Nat) (uncurry : Nat)
    (fnTy : Ty) : FD → Option Bool
  | .mk t cn o =>
    if !hasKnownVTableEntry (.mk t cn o) then some true
    else
      match compatLoop igm lvl (uncurry + 1) fnTy t with
      | none => none
      | some true => some false
      | some false =>
          match o with
          | none => some true
          | some next => overrideEntryLoop igm lvl uncurry fnTy next

/-- doesMethodRequireOverrideEntry from GenMeta.cpp.  The source asserts that
the method overrides something; a method with no overridden declaration is
`none`. -/
def doesMethodRequireOverrideEntry (igm : AbstractionOracle) (lvl : Nat)
    (fn : FD) (uncurry : Nat) : Option Bool :=
  match fn.overriddenDecl with
  | none => none
  | some ov => overrideEntryLoop igm lvl uncurry fn.ty ov


/-! Concrete inputs for the override-compatibility claims. -/

/-- Concrete ABI oracle: exactly the type `leaf 1` has an indirectly
returned (in-memory) result; no other abstraction differences exist. -/
def igm0 : AbstractionOracle where
  requiresIndirectResult := fun t _ => Ty.beq t (Ty.leaf 1)
  differsByAbstractionInExplosion := fun _ _ _ => false
  differsByAbstractionInMemory := fun _ _ => false

/-- Overridden method, result type `leaf 1` (returned indirectly). -/
def base0 : FD := .mk (Ty.fn (.leaf 0) (.leaf 1)) (some false) none

/-- Overriding method, result type `leaf 0` (returned directly), same
argument type, directly overriding `base0`. -/
def fn0 : FD := .mk (Ty.fn (.leaf 0) (.leaf 0)) (some false) (some base0)

/-- Root ancestor from a foreign (Clang-imported, non-class-context)
declaration: no known vtable entry. -/
def bC8 : FD := .mk (Ty.fn (.leaf 0) (.leaf 2)) none none

/-- Intermediate ancestor with a vtable entry whose type is identical to
the final override, overriding `bC8`. -/
def aC8 : FD := .mk (Ty.fn (.leaf 0) (.leaf 0)) (some false) (some bC8)

/-- Most-derived method, same type as `aC8`, overriding it. -/
def fnC8 : FD := .mk (Ty.fn (.leaf 0) (.leaf 0)) (some false) (some aC8)

/-- C1: for an override pair whose overridden result is returned indirectly
while the overriding result is returned directly, the result check
isIncompatibleOverrideResult correctly judges the pair incompatible
(`some true`), yet doesMethodRequireOverrideEntry answers `some false` (no
new v-table slot): isCompatibleOverride returns the unnegated value of
isIncompatibleOverrideResult, so the incompatible pair is treated as the
compatible ancestor that ends the walk.  This evaluates the embedded source
at the failing input of the claim. -/
theorem c1_indirect_direct_mismatch_eval :
    igm0.requiresIndirectResult (Ty.leaf 1) 0 = true ∧
    igm0.requiresIndirectResult (Ty.leaf 0) 0 = false ∧
    isIncompatibleOverrideResult igm0 0 (Ty.leaf 0) (Ty.leaf 1) = some true ∧
    doesMethodRequireOverrideEntry igm0 0 fn0 0 = some false :=
  ⟨rfl, rfl, rfl, rfl⟩

/-- Listified form of the override-entry walk: process the override chain
front to back exactly as the do-while loop of
doesMethodRequireOverrideEntry does. -/
def walkList (igm : AbstractionOracle) (lvl uncurry : Nat) (fnTy : Ty) :
    List FD → Option Bool
  | [] => some true
  | ov :: rest =>
    if !hasKnownVTableEntry ov then some true
    else
      match compatLoop igm lvl (uncurry + 1) fnTy ov.ty with
      | none => none
      | some true => some false
      | some false => walkList igm lvl uncurry fnTy rest

theorem overrideEntryLoop_eq_walkList (igm : AbstractionOracle)
    (lvl uncurry : Nat) (fnTy : Ty) :
    ∀ ov : FD, overrideEntryLoop igm lvl uncurry fnTy ov
      = walkList igm lvl uncurry fnTy (ov :: FD.chain ov)
  | .mk t cn none => by
      simp only [overrideEntryLoop, walkList, FD.chain, FD.ty]
  | .mk t cn (some next) => by
      have ih := overrideEntryLoop_eq_walkList igm lvl uncurry fnTy next
      simp only [overrideEntryLoop, walkList, FD.chain, FD.ty]
      rw [ih]
      rfl

theorem requireOverrideEntry_eq_walkList (igm : AbstractionOracle)
    (lvl uncurry : Nat) (t : Ty) (cn : Option Bool) (ov : FD) :
    doesMethodRequireOverrideEntry igm lvl (.mk t cn (some ov)) uncurry
      = walkList igm lvl uncurry t (FD.chain (.mk t cn (some ov))) := by
  simp only [doesMethodRequireOverrideEntry, FD.overriddenDecl, FD.chain, FD.ty]
  exact overrideEntryLoop_eq_walkList igm lvl uncurry t ov

theorem walkList_stops_at_compat (igm : AbstractionOracle)
    (lvl uncurry : Nat) (fnTy : Ty) :
    ∀ (l : List FD) (k : Nat) (hk : k < l.length),
    (∀ i (hi : i < k), hasKnownVTableEntry (l.get ⟨i, hi.trans hk⟩) = true ∧
      compatLoop igm lvl (uncurry + 1) fnTy (l.get ⟨i, hi.trans hk⟩).ty = some false) →
    hasKnownVTableEntry (l.get ⟨k, hk⟩) = true →
    compatLoop igm lvl (uncurry + 1) fnTy (l.get ⟨k, hk⟩).ty = some true →
    walkList igm lvl uncurry fnTy l = some false
  | a :: rest, 0, hk => by
      intro _ hVT hcompat
      simp only [List.get] at hVT hcompat
      simp [walkList, hVT, hcompat]
  | a :: rest, k + 1, hk => by
      intro hpre hVT hcompat
      obtain ⟨ha, hc⟩ := hpre 0 (Nat.succ_pos k)
      simp only [List.get] at ha hc hVT hcompat
      have ih := walkList_stops_at_compat igm lvl uncurry fnTy rest k
        (Nat.lt_of_succ_lt_succ hk)
        (fun i hi => hpre (i + 1) (Nat.succ_lt_succ hi))
        hVT hcompat
      simp [walkList, ha, hc, ih]

theorem walkList_foreign_requires_entry (igm : AbstractionOracle)
    (lvl uncurry : Nat) (fnTy : Ty) :
    ∀ (l : List FD) (k : Nat) (hk : k < l.length),
    (∀ i (hi : i < k), hasKnownVTableEntry (l.get ⟨i, hi.trans hk⟩) = true ∧
      compatLoop igm lvl (uncurry + 1) fnTy (l.get ⟨i, hi.trans hk⟩).ty = some false) →
    hasKnownVTableEntry (l.get ⟨k, hk⟩) = false →
    walkList igm lvl uncurry fnTy l = some true
  | a :: rest, 0, hk => by
      intro _ hVT
      simp only [List.get] at hVT
      simp [walkList, hVT]
  | a :: rest, k + 1, hk => by
      intro hpre hVT
      obtain ⟨ha, hc⟩ := hpre 0 (Nat.succ_pos k)
      simp only [List.get] at ha hc hVT
      have ih := walkList_foreign_requires_entry igm lvl uncurry fnTy rest k
        (Nat.lt_of_succ_lt_succ hk)
        (fun i hi => hpre (i + 1) (Nat.succ_lt_succ hi))
        hVT
      simp [walkList, ha, hc, ih]

/-- C8 (amended): scanning the override chain closest-derived first, suppose
every ancestor strictly before position k has a known vtable entry and is
judged incompatible.  Then if the ancestor at position k has a vtable entry
and is judged compatible, the walk stops there and answers no new slot
needed; and if the ancestor at position k has no vtable entry (a
foreign declaration), a new slot is required. -/
theorem c8_override_walk (igm : AbstractionOracle) (lvl uncurry : Nat)
    (fn : FD) (k : Nat) (hk : k < (FD.chain fn).length)
    (hpre : ∀ i (hi : i < k),
      hasKnownVTableEntry ((FD.chain fn).get ⟨i, hi.trans hk⟩) = true ∧
      isCompatibleOverride igm lvl fn ((FD.chain fn).get ⟨i, hi.trans hk⟩) uncurry
        = some false) :
    (hasKnownVTableEntry ((FD.chain fn).get ⟨k, hk⟩) = true →
      isCompatibleOverride igm lvl fn ((FD.chain fn).get ⟨k, hk⟩) uncurry = some true →
      doesMethodRequireOverrideEntry igm lvl fn uncurry = some false) ∧
    (hasKnownVTableEntry ((FD.chain fn).get ⟨k, hk⟩) = false →
      doesMethodRequireOverrideEntry igm lvl fn uncurry = some true) := by
  match fn, hk, hpre with
  | .mk t cn (some ov), hk, hpre =>
    rw [requireOverrideEntry_eq_walkList]
    constructor
    · intro hVT hcompat
      exact walkList_stops_at_compat igm lvl uncurry t _ k hk hpre hVT hcompat
    · intro hVT
      exact walkList_foreign_requires_entry igm lvl uncurry t _ k hk hpre hVT

/-- Method whose single ancestor is vtable-backed and compatibly typed. -/
def fnW8 : FD := .mk (Ty.fn (.leaf 0) (.leaf 0)) (some false)
  (some (.mk (Ty.fn (.leaf 0) (.leaf 0)) (some false) none))

/-- C8 witness: a single-element chain whose ancestor is vtable-backed and
judged compatible makes the walk answer no new slot. -/
theorem c8_override_walk_witness :
    doesMethodRequireOverrideEntry igm0 0 fnW8 0 = some false :=
  (c8_override_walk igm0 0 0 fnW8 0 (Nat.succ_pos 0)
    (fun i hi => absurd hi (Nat.not_lt_zero i))).1 rfl rfl

/-- C8 counterexample to the claim as stated: `bC8` is an overridden
declaration in the chain of `fnC8` with no virtual-table entry, yet
doesMethodRequireOverrideEntry answers `some false` (no new slot), because
the walk already stopped at the earlier compatible ancestor `aC8`. -/
theorem c8_foreign_in_chain_cx :
    bC8 ∈ FD.chain fnC8 ∧ hasKnownVTableEntry bC8 = false ∧
    doesMethodRequireOverrideEntry igm0 0 fnC8 0 = some false := by
  refine ⟨?_, rfl, rfl⟩
  show bC8 ∈ FD.chain fnC8
  simp only [fnC8, aC8, FD.chain]
  exact List.mem_cons_of_mem _ (List.mem_cons_self _ _)


/-! Embedding of the metadata-reference resolver (EmitTypeMetadataRef and
emitNominalMetadataRef) with its per-session local cache. -/

/-- Model of an llvm::Value produced by metadata-reference emission:
constant addresses of type metadata globals (with the pattern flag used by
getAddrOfTypeMetadata), the empty-tuple metadata global, undefined
placeholders for unimplemented shapes, and runtime-call results numbered in
emission order. -/
inductive Val where
  | constAddr (t : Ty) (pattern : Bool)
  | emptyTuple
  | undef
  | dyn (n : Nat)
  deriving Repr

/-- Runtime entry points called by the metadata-reference resolver. -/
inductive RtFn where
  | getGenericMetadata
  | getObjCClassMetadata
  | getTupleMetadata2
  | getTupleMetadata3
  | getTupleMetadata
  | getFunctionMetadata
  | getMetatypeMetadata
  deriving DecidableEq, Repr

/-- State of one function-generation session (an IRGenFunction): the local
type-data cache consulted by tryGetLocalTypeData, the log of runtime calls
emitted so far, and a counter numbering fresh instruction results.  A new
session starts from a fresh state. -/
structure EmitSt where
  cache : List (Ty × Val)
  calls : List (RtFn × List Val)
  next : Nat
  deriving Repr

/-- External collaborators of the resolver: witness-table references
collected per substitution (emitWitnessTableRefs, from GenProto) and the
FixedTypeInfo-based mapping of an opaque builtin type to the integer type
whose runtime metadata stands in for it (visitOpaqueType). -/
structure EmitCfg where
  wt : Ty → List Val
  opaqueRemap : Ty → Ty

/-- IRGenFunction::tryGetLocalTypeData for the Metatype kind. -/
def tryGetLocal (s : EmitSt) (t : Ty) : Option Val :=
  (s.cache.find? (fun p => Ty.beq p.1 t)).map (fun p => p.2)

/-- EmitTypeMetadataRef::setLocal: the source is a stub that returns the
value without saving anything (its body is only the FIXME comment about
saving scope type metadata), so the cache is left untouched. -/
def setLocal (_t : Ty) (v : Val) (s : EmitSt) : Val × EmitSt := (v, s)

/-- Emit one call to a runtime entry point, producing a fresh result and
appending the call to the session log. -/
def rtCall (f : RtFn) (args : List Val) (s : EmitSt) : Val × EmitSt :=
  (Val.dyn s.next, { s with calls := s.calls ++ [(f, args)], next := s.next + 1 })

mutual

/-- IRGenFunction::emitTypeMetadataRef, dispatching as the
EmitTypeMetadataRef visitor does.  Opaque builtins resolve to a direct
constant address through the opaque remapping; non-generic nominal types
resolve to a constant address (isMetadataIndirect is the stubbed false, so
no indirection load happens), with Clang-imported classes going through the
ObjC metadata accessor instead; bound generic nominal types consult the
local cache and otherwise collect their substitution metadata and witness
tables and call swift_getGenericMetadata, without writing the cache back
(the source only carries a FIXME for saving it); tuples special-case
arities 0 to 3 with the singleton case degenerating to its element;
function and metatype types recurse then call their constructors;
archetypes must already be bound in the local data (getLocalTypeData
asserts, hence `none` on a miss); unsupported shapes produce an undefined
placeholder after an unimplemented diagnostic.  The constant label-string
and proposed witness-table arguments of the tuple constructors are omitted
from the logged argument lists. -/
def emitTypeMetadataRef (cfg : EmitCfg) : Ty → EmitSt → Option (Val × EmitSt)
  | .leaf i, s => some (Val.constAddr (cfg.opaqueRemap (.leaf i)) false, s)
  | .nominal i isC clang, s =>
      if isC && clang then
        some (rtCall .getObjCClassMetadata [Val.constAddr (.nominal i isC clang) false] s)
      else
        some (Val.constAddr (.nominal i isC clang) false, s)
  | .boundGeneric i isC clang args, s =>
      if isC && clang then none
      else
        match tryGetLocal s (.boundGeneric i isC clang args) with
        | some v => some (v, s)
        | none =>
            match emitMetadataRefList cfg args s with
            | none => none
            | some (vals, s1) =>
                some (rtCall .getGenericMetadata
                  (Val.constAddr (.nominal i isC clang) true
                    :: (vals ++ (args.map cfg.wt).flatten)) s1)
  | .tuple es, s =>
      match tryGetLocal s (.tuple es) with
      | some v => some (v, s)
      | none =>
          match es with
          | [] => some (Val.emptyTuple, s)
          | [e] => emitTypeMetadataRef cfg e s
          | [e1, e2] =>
              match emitTypeMetadataRef cfg e1 s with
              | none => none
              | some (m1, s1) =>
                  match emitTypeMetadataRef cfg e2 s1 with
                  | none => none
                  | some (m2, s2) =>
                      let c := rtCall .getTupleMetadata2 [m1, m2] s2
                      some (setLocal (.tuple [e1, e2]) c.1 c.2)
          | [e1, e2, e3] =>
              match emitTypeMetadataRef cfg e1 s with
              | none => none
              | some (m1, s1) =>
                  match emitTypeMetadataRef cfg e2 s1 with
                  | none => none
                  | some (m2, s2) =>
                      match emitTypeMetadataRef cfg e3 s2 with
                      | none => none
                      | some (m3, s3) =>
                          let c := rtCall .getTupleMetadata3 [m1, m2, m3] s3
                          some (setLocal (.tuple [e1, e2, e3]) c.1 c.2)
          | e1 :: e2 :: e3 :: e4 :: rest =>
              match emitMetadataRefList cfg (e1 :: e2 :: e3 :: e4 :: rest) s with
              | none => none
              | some (vals, s1) =>
                  let c := rtCall .getTupleMetadata vals s1
                  some (setLocal (.tuple (e1 :: e2 :: e3 :: e4 :: rest)) c.1 c.2)
  | .fn a r, s =>
      match tryGetLocal s (.fn a r) with
      | some v => some (v, s)
      | none =>
          match emitTypeMetadataRef cfg a s with
          | none => none
          | some (ma, s1) =>
              match emitTypeMetadataRef cfg r s1 with
              | none => none
              | some (mr, s2) =>
                  let c := rtCall .getFunctionMetadata [ma, mr] s2
                  some (setLocal (.fn a r) c.1 c.2)
  | .meta t, s =>
      match tryGetLocal s (.meta t) with
      | some v => some (v, s)
      | none =>
          match emitTypeMetadataRef cfg t s with
          | none => none
          | some (mi, s1) =>
              let c := rtCall .getMetatypeMetadata [mi] s1
              some (setLocal (.meta t) c.1 c.2)
  | .arch i, s =>
      match tryGetLocal s (.arch i) with
      | some v => some (v, s)
      | none => none
  | .unsupported _, s => some (Val.undef, s)

/-- Sequential emission of a list of metadata references, threading the
session state left to right (GenericArguments::collect, and the element
loop of the variadic tuple path). -/
def emitMetadataRefList (cfg : EmitCfg) : List Ty → EmitSt → Option (List Val × EmitSt)
  | [], s => some ([], s)
  | t :: ts, s =>
      match emitTypeMetadataRef cfg t s with
      | none => none
      | some (v, s1) =>
          match emitMetadataRefList cfg ts s1 with
          | none => none
          | some (vs, s2) => some (v :: vs, s2)

end

/-- Session-independent external inputs for the emission claims: no witness
tables, identity opaque remapping. -/
def cfg0 : EmitCfg := ⟨fun _ => [], fun t => t⟩

/-- A fresh function-generation session: empty cache, no calls emitted. -/
def st0 : EmitSt := ⟨[], [], 0⟩

/-- A bound generic struct type with one substitution. -/
def tGen : Ty := .boundGeneric 7 false false [.leaf 0]

/-- Argument list of the swift_getGenericMetadata call for `tGen`: the
metadata pattern address and the packed substitution metadata. -/
def gmArgs : List Val :=
  [Val.constAddr (.nominal 7 false false) true, Val.constAddr (.leaf 0) false]

/-- C2: emitting the metadata reference of the same bound generic type twice
in one session issues the swift_getGenericMetadata runtime call twice and
returns two distinct fresh values; the local cache stays empty throughout
because neither emitNominalMetadataRef nor setLocal stores the result (both
sites carry only a FIXME).  This contradicts the claimed caching law, which
requires the second emission to return the first cached value with at most
one runtime call. -/
theorem c2_generic_reemission_eval :
    emitTypeMetadataRef cfg0 tGen st0
      = some (Val.dyn 0, ⟨[], [(RtFn.getGenericMetadata, gmArgs)], 1⟩) ∧
    emitTypeMetadataRef cfg0 tGen ⟨[], [(RtFn.getGenericMetadata, gmArgs)], 1⟩
      = some (Val.dyn 1,
          ⟨[], [(RtFn.getGenericMetadata, gmArgs),
                (RtFn.getGenericMetadata, gmArgs)], 2⟩) ∧
    ([(RtFn.getGenericMetadata, gmArgs),
      (RtFn.getGenericMetadata, gmArgs)].countP
        (fun c => c.1 == RtFn.getGenericMetadata)) = 2 ∧
    Val.dyn 0 ≠ Val.dyn 1 := by
  refine ⟨rfl, rfl, rfl, ?_⟩
  simp

/-- C9: resolving the metadata reference of a singleton tuple whose element
is t, in any session state that has no cached entry for the tuple type
itself, is the very same computation as resolving t directly: same value,
same final session state, hence no tuple-constructor runtime call of its
own. -/
theorem c9_singleton_tuple (cfg : EmitCfg) (t : Ty) (s : EmitSt)
    (h : tryGetLocal s (.tuple [t]) = none) :
    emitTypeMetadataRef cfg (.tuple [t]) s = emitTypeMetadataRef cfg t s := by
  simp only [emitTypeMetadataRef, h]

/-- C9 witness: the singleton tuple over an opaque builtin in a fresh
session resolves exactly as the builtin does. -/
theorem c9_singleton_tuple_witness :
    emitTypeMetadataRef cfg0 (.tuple [.leaf 0]) st0
      = emitTypeMetadataRef cfg0 (.leaf 0) st0 :=
  c9_singleton_tuple cfg0 (.leaf 0) st0 rfl


/-! Embedding of the MetadataSearcher field-locator mechanism. -/

/-- One step of an instrumented layout traversal as seen by a
MetadataSearcher subclass: each add-hook either matches its target
(calling setTargetIndex) or not, and in both cases advances NextIndex;
the noteAddressPoint override records the current index. -/
inductive ScanStep where
  | slot (hit : Bool)
  | notePoint
  deriving DecidableEq, Repr

/-- Mutable state of a MetadataSearcher during layout; `none` plays the
role of the InvalidIndex sentinel. -/
structure ScanSt where
  nextIndex : Nat
  targetIndex : Option Nat
  addressPoint : Option Nat
  deriving DecidableEq, Repr

/-- Effect of one traversal step on the searcher state.  setTargetIndex
asserts the target index was not set before ("setting twice"); `none`
models that assertion firing. -/
def scanStep (st : ScanSt) : ScanStep → Option ScanSt
  | .slot true =>
      match st.targetIndex with
      | some _ => none
      | none => some { st with targetIndex := some st.nextIndex,
                               nextIndex := st.nextIndex + 1 }
  | .slot false => some { st with nextIndex := st.nextIndex + 1 }
  | .notePoint => some { st with addressPoint := some st.nextIndex }

/-- Run a traversal suffix from a given searcher state. -/
def runScanFrom (st : ScanSt) : List ScanStep → Option ScanSt
  | [] => some st
  | s :: rest =>
      match scanStep st s with
      | none => none
      | some st2 => runScanFrom st2 rest

/-- Run the whole traversal from the initial searcher state. -/
def runScan (steps : List ScanStep) : Option ScanSt :=
  runScanFrom ⟨0, none, none⟩ steps

/-- MetadataSearcher::getTargetIndex: perform the layout, assert that the
target was found and that the address point was noted (aborting otherwise),
and return targetIndex minus addressPoint as a signed quantity. -/
def getTargetIndex (steps : List ScanStep) : Option Int :=
  match runScan steps with
  | none => none
  | some st =>
      match st.targetIndex, st.addressPoint with
      | some t, some a => some ((t : Int) - (a : Int))
      | _, _ => none

/-- Number of slot-producing steps (hooks that advance NextIndex). -/
def countSlots (steps : List ScanStep) : Nat :=
  steps.countP (fun s => match s with | .slot _ => true | .notePoint => false)

/-- Number of steps that match the searcher's target. -/
def countHits (steps : List ScanStep) : Nat :=
  steps.countP (fun s => match s with | .slot h => h | .notePoint => false)

/-- Ordinal recorded by the last noteAddressPoint of the traversal: the
number of slot-producing steps before it, or `none` when no address point
is ever noted. -/
def lastNoteOrd : List ScanStep → Option Nat
  | [] => none
  | .slot _ :: rest => (lastNoteOrd rest).map (· + 1)
  | .notePoint :: rest =>
      match lastNoteOrd rest with
      | some k => some k
      | none => some 0

theorem countSlots_nil : countSlots [] = 0 := rfl

theorem countSlots_cons_slot (b : Bool) (rest : List ScanStep) :
    countSlots (ScanStep.slot b :: rest) = countSlots rest + 1 := by
  simp [countSlots, List.countP_cons]

theorem countSlots_cons_note (rest : List ScanStep) :
    countSlots (ScanStep.notePoint :: rest) = countSlots rest := by
  simp [countSlots, List.countP_cons]

theorem countHits_cons_slot (b : Bool) (rest : List ScanStep) :
    countHits (ScanStep.slot b :: rest) = countHits rest + (if b then 1 else 0) := by
  cases b <;> simp [countHits, List.countP_cons]

theorem countHits_cons_note (rest : List ScanStep) :
    countHits (ScanStep.notePoint :: rest) = countHits rest := by
  simp [countHits, List.countP_cons]

theorem runScanFrom_append (st : ScanSt) (xs ys : List ScanStep) :
    runScanFrom st (xs ++ ys)
      = match runScanFrom st xs with
        | none => none
        | some st1 => runScanFrom st1 ys := by
  induction xs generalizing st with
  | nil => simp [runScanFrom]
  | cons x rest ih =>
      simp only [List.cons_append, runScanFrom]
      cases scanStep st x with
      | none => rfl
      | some st2 => exact ih st2

theorem runScanFrom_noHits (steps : List ScanStep) :
    ∀ st : ScanSt, countHits steps = 0 →
    runScanFrom st steps = some ⟨st.nextIndex + countSlots steps, st.targetIndex,
      match lastNoteOrd steps with
      | none => st.addressPoint
      | some k => some (st.nextIndex + k)⟩ := by
  induction steps with
  | nil => intro st _; simp [runScanFrom, countSlots, lastNoteOrd]
  | cons x rest ih =>
      intro st h
      match x with
      | .slot true =>
          rw [countHits_cons_slot] at h
          simp at h
      | .slot false =>
          rw [countHits_cons_slot] at h
          simp at h
          simp only [runScanFrom, scanStep]
          rw [ih _ h]
          rw [countSlots_cons_slot]
          cases hn : lastNoteOrd rest with
          | none => simp [lastNoteOrd, hn, ScanSt.mk.injEq]; omega
          | some k => simp [lastNoteOrd, hn, ScanSt.mk.injEq]; omega
      | .notePoint =>
          rw [countHits_cons_note] at h
          simp only [runScanFrom, scanStep]
          rw [ih _ h]
          rw [countSlots_cons_note]
          cases hn : lastNoteOrd rest with
          | none => simp [lastNoteOrd, hn, ScanSt.mk.injEq]
          | some k => simp [lastNoteOrd, hn, ScanSt.mk.injEq]

theorem runScanFrom_addressPoint (steps : List ScanStep) :
    ∀ st st2 : ScanSt, runScanFrom st steps = some st2 →
    st2.addressPoint
      = match lastNoteOrd steps with
        | none => st.addressPoint
        | some k => some (st.nextIndex + k) := by
  induction steps with
  | nil =>
      intro st st2 h
      simp only [runScanFrom, Option.some.injEq] at h
      subst h
      simp [lastNoteOrd]
  | cons x rest ih =>
      intro st st2 h
      match x with
      | .slot true =>
          simp only [runScanFrom, scanStep] at h
          match ht : st.targetIndex with
          | some _ => rw [ht] at h; exact absurd h (by simp)
          | none =>
              rw [ht] at h
              have h2 := ih _ _ h
              simp only at h2
              rw [h2]
              cases hn : lastNoteOrd rest with
              | none => simp [lastNoteOrd, hn]
              | some k => simp [lastNoteOrd, hn]; omega
      | .slot false =>
          simp only [runScanFrom, scanStep] at h
          have h2 := ih _ _ h
          simp only at h2
          rw [h2]
          cases hn : lastNoteOrd rest with
          | none => simp [lastNoteOrd, hn]
          | some k => simp [lastNoteOrd, hn]; omega
      | .notePoint =>
          simp only [runScanFrom, scanStep] at h
          have h2 := ih _ _ h
          simp only at h2
          rw [h2]
          cases hn : lastNoteOrd rest with
          | none => simp [lastNoteOrd, hn]
          | some k => simp [lastNoteOrd, hn]

theorem lastNoteOrd_append (xs ys : List ScanStep) :
    lastNoteOrd (xs ++ ys)
      = match lastNoteOrd ys with
        | some k => some (countSlots xs + k)
        | none => lastNoteOrd xs := by
  induction xs with
  | nil =>
      cases h : lastNoteOrd ys <;> simp [h, countSlots, lastNoteOrd]
  | cons x rest ih =>
      match x with
      | .slot b =>
          cases h : lastNoteOrd ys with
          | some k =>
              simp only [h] at ih
              simp only [List.cons_append, lastNoteOrd, List.append_eq, ih, h,
                Option.map_some', countSlots_cons_slot, Option.some.injEq]
              omega
          | none =>
              simp only [h] at ih
              simp only [List.cons_append, lastNoteOrd, List.append_eq, ih, h]
      | .notePoint =>
          cases h : lastNoteOrd ys with
          | some k =>
              simp only [h] at ih
              simp only [List.cons_append, lastNoteOrd, List.append_eq, ih, h,
                countSlots_cons_note]
          | none =>
              simp only [h] at ih
              simp only [List.cons_append, lastNoteOrd, List.append_eq, ih, h]

/-- C4: behaviour of the field locator.  If the traversal contains exactly
one target hit, preceded and followed by non-matching steps, and notes an
address point whose final recorded ordinal is a, then getTargetIndex
returns exactly (number of slots before the hit) minus a, a possibly
negative signed offset; if the target never matches, or the address point
is never noted, getTargetIndex aborts (returns no value) instead of
producing an offset. -/
theorem c4_metadata_searcher (steps pre post : List ScanStep) (a : Nat) :
    (steps = pre ++ ScanStep.slot true :: post → countHits pre = 0 →
      countHits post = 0 → lastNoteOrd steps = some a →
      getTargetIndex steps = some ((countSlots pre : Int) - (a : Int))) ∧
    (countHits steps = 0 → getTargetIndex steps = none) ∧
    (lastNoteOrd steps = none → getTargetIndex steps = none) := by
  refine ⟨?_, ?_, ?_⟩
  · intro hsteps hpre hpost hnote
    subst hsteps
    have h2 := runScanFrom_append ⟨0, none, none⟩ pre (ScanStep.slot true :: post)
    rw [runScanFrom_noHits pre ⟨0, none, none⟩ hpre] at h2
    simp only [runScanFrom, scanStep] at h2
    rw [runScanFrom_noHits post _ hpost] at h2
    rw [lastNoteOrd_append] at hnote
    simp only [lastNoteOrd] at hnote
    unfold getTargetIndex runScan
    rw [h2]
    cases hn : lastNoteOrd post with
    | some k =>
        rw [hn] at hnote
        simp only [Option.map_some', Option.some.injEq] at hnote
        simp only [hn]
        simp only [Option.some.injEq]
        omega
    | none =>
        rw [hn] at hnote
        simp only [Option.map_none'] at hnote
        cases hp : lastNoteOrd pre with
        | none => rw [hp] at hnote; simp at hnote
        | some k =>
            rw [hp] at hnote
            simp only [Option.some.injEq] at hnote
            simp only [hn, hp]
            simp only [Option.some.injEq]
            omega
  · intro h
    unfold getTargetIndex runScan
    rw [runScanFrom_noHits steps ⟨0, none, none⟩ h]
  · intro h
    unfold getTargetIndex runScan
    cases hr : runScanFrom ⟨0, none, none⟩ steps with
    | none => rfl
    | some st2 =>
        have h2 := runScanFrom_addressPoint steps _ _ hr
        rw [h] at h2
        simp only at h2
        show (match st2.targetIndex, st2.addressPoint with
              | some t, some a => some ((t : Int) - (a : Int))
              | _, _ => none) = none
        rw [h2]
        cases st2.targetIndex <;> rfl

/-- C4 witness: a matching slot immediately followed by the address-point
note yields the negative offset minus one. -/
theorem c4_metadata_searcher_witness :
    getTargetIndex [ScanStep.slot true, ScanStep.notePoint] = some (-1) :=
  (c4_metadata_searcher [ScanStep.slot true, ScanStep.notePoint] []
    [ScanStep.notePoint] 1).1 rfl rfl rfl rfl


/-! Embedding of the generic metadata template builder
(GenericMetadataBuilderBase wrapped around the kind-specific builder
bases).  The kind-specific traversal order itself lives in the layout
headers, which are not part of the provided source; it is modelled from
the spec below. -/

/-- Constant field values pushed into the Fields vector by the builders:
the fill-function address, 32-bit and 16-bit integer constants, the small
metadata-kind tag, null pointers, pointer-sized integers, miscellaneous
constant addresses, the 8-pointer zero-initialized private-data block,
function addresses, dependent value-witness-table pattern entries, and the
null placeholder reserved for a not-yet-filled header slot. -/
inductive Cst where
  | placeholder
  | fillFnPtr
  | int32 (v : Nat)
  | int16 (v : Nat)
  | kindTag (v : Nat)
  | nullPtr
  | intPtr (v : Nat)
  | addrOf (k : Nat)
  | privateData
  | funcAddr (id : Nat)
  | vwtPattern (k : Nat)
  deriving DecidableEq, Repr

/-- Byte size of a constant field for a given machine word size: 32-bit
and 16-bit integers keep their fixed sizes, the private-data block is 8
words, everything else is one pointer word. -/
def cstByteSize (wordSize : Nat) : Cst → Nat
  | .int32 _ => 4
  | .int16 _ => 2
  | .privateData => 8 * wordSize
  | _ => wordSize

/-- One hook invocation of a metadata layout traversal. -/
inductive LEvent where
  | flags
  | vwTable
  | destructor
  | parent
  | superclass
  | descriptor
  | fieldOffset (f : Nat)
  | method (m : Nat)
  | genericArg (a : Nat)
  | genericWitness (a p : Nat)
  | notePoint
  deriving DecidableEq, Repr

/-- The three generic-capable nominal kinds. -/
inductive MKind where
  | classKind
  | structKind
  | enumKind
  deriving DecidableEq, Repr

/-- External inputs of a template build: the machine word size, whether the
value witness table depends on the generic parameters
(hasDependentValueWitnessTable), the constant addresses the base builders
push (value-witness table, metaclass, deallocating destructor, parent and
superclass references when they are link-time constants), the fields
emitted by emitDependentValueWitnessTablePattern, and the final-overrider
map the class builder computes at construction time. -/
structure BuildCfg where
  wordSize : Nat
  dependentVWT : Bool
  vwtAddr : Nat
  metaclassAddr : Nat
  destructorAddr : Nat
  parentConst : Option Nat
  superConst : Option Nat
  depPattern : List Cst
  finalOverriders : Nat → Option Nat

/-- Number of header fields prepended to a generic metadata template
(GenericMetadataBuilderBase::TemplateHeaderFieldCount). -/
def TemplateHeaderFieldCount : Nat := 5

/-- Mutable state of a generic template build: the Fields vector, the
recorded FillOps, the NumGenericWitnesses counter, the AddressPoint (0
doubles as the unset sentinel, exactly as in the source), and the
dependent value-witness-table data. -/
structure GBSt where
  fields : List Cst
  fillOps : List (Nat × Nat)
  numGenericWitnesses : Nat
  addressPoint : Nat
  hasDependentVWT : Bool
  dependentVWTPoint : Nat
  deriving Repr

/-- GenericMetadataBuilderBase::getNextIndex: the next field index ignoring
the preallocated header. -/
def getNextIndexG (st : GBSt) : Nat := st.fields.length - TemplateHeaderFieldCount

/-- Append one constant to the Fields vector. -/
def pushField (st : GBSt) (c : Cst) : GBSt := { st with fields := st.fields ++ [c] }

/-- Effect of one traversal hook on the template build state, following the
kind-specific builder bases for the field values: the class flags slot is
the metaclass pointer as an intptr, struct and enum flags are the metadata
kind tag; the class value-witness-table slot is the ObjectPointer table
while struct and enum generic builders record dependence and push null when
dependent; parent and superclass references degrade to null when no
constant address exists (struct and enum parents are the FIXME null); field
offsets are the constant 0; a method slot pushes the final overrider's
function address, aborting if the overrider map has no entry (the source
asserts it); the generic-argument and generic-witness-table hooks first
record a FillOp (source index NumGenericWitnesses++, destination index
getNextIndex()) and then push the null placeholder; noteAddressPoint
records getNextIndex(). -/
def runEvent (k : MKind) (cfg : BuildCfg) (st : GBSt) : LEvent → Option GBSt
  | .flags =>
      some (pushField st (match k with
        | .classKind => .intPtr cfg.metaclassAddr
        | .structKind => .kindTag 1
        | .enumKind => .kindTag 2))
  | .vwTable =>
      match k with
      | .classKind => some (pushField st (.addrOf cfg.vwtAddr))
      | _ => some (pushField { st with hasDependentVWT := cfg.dependentVWT }
              (if cfg.dependentVWT then .nullPtr else .addrOf cfg.vwtAddr))
  | .destructor => some (pushField st (.funcAddr cfg.destructorAddr))
  | .parent =>
      match k with
      | .classKind => some (pushField st (match cfg.parentConst with
          | some c => .addrOf c
          | none => .nullPtr))
      | _ => some (pushField st .nullPtr)
  | .superclass => some (pushField st (match cfg.superConst with
      | some c => .addrOf c
      | none => .nullPtr))
  | .descriptor => some (pushField st .nullPtr)
  | .fieldOffset _ => some (pushField st (.intPtr 0))
  | .method m =>
      match cfg.finalOverriders m with
      | none => none
      | some g => some (pushField st (.funcAddr g))
  | .genericArg _ =>
      some (pushField { st with
        fillOps := st.fillOps ++ [(st.numGenericWitnesses, getNextIndexG st)],
        numGenericWitnesses := st.numGenericWitnesses + 1 } .nullPtr)
  | .genericWitness _ _ =>
      some (pushField { st with
        fillOps := st.fillOps ++ [(st.numGenericWitnesses, getNextIndexG st)],
        numGenericWitnesses := st.numGenericWitnesses + 1 } .nullPtr)
  | .notePoint => some { st with addressPoint := getNextIndexG st }

/-- Run a traversal, threading the build state. -/
def runEvents (k : MKind) (cfg : BuildCfg) : GBSt → List LEvent → Option GBSt
  | st, [] => some st
  | st, e :: rest =>
      match runEvent k cfg st e with
      | none => none
      | some st2 => runEvents k cfg st2 rest

/-- Initial build state: room for the header is reserved up front. -/
def initGBSt : GBSt :=
  ⟨List.replicate TemplateHeaderFieldCount .placeholder, [], 0, 0, false, 0⟩

/-- Header-filling tail of GenericMetadataBuilderBase::layout, applied to
the state produced by the wrapped traversal: append the dependent
value-witness-table pattern when one is needed (recording its index), then
fill the header in place: the fill function pointer; the 32-bit metadata
size computed as the post-header field count times the pointer size; the
16-bit argument count; the 16-bit address-point byte offset (asserting the
address point was noted, with 0 doubling as the unset sentinel exactly as
in the source); and the 8-word zero-initialized private data. -/
def finishTemplate (cfg : BuildCfg) (st1 : GBSt) : Option GBSt :=
  let st2 := if st1.hasDependentVWT then
      { st1 with dependentVWTPoint := getNextIndexG st1,
                 fields := st1.fields ++ cfg.depPattern }
    else st1
  if st2.addressPoint = 0 then none
  else some { st2 with fields :=
    [Cst.fillFnPtr,
     Cst.int32 ((getNextIndexG st2 * cfg.wordSize) % 2 ^ 32),
     Cst.int16 (st2.numGenericWitnesses % 2 ^ 16),
     Cst.int16 ((st2.addressPoint * cfg.wordSize) % 2 ^ 16),
     Cst.privateData] ++ st2.fields.drop TemplateHeaderFieldCount }

/-- GenericMetadataBuilderBase::layout: reserve the header, run the wrapped
traversal, then finish by appending any dependent value-witness-table
pattern and filling the header. -/
def buildTemplate (k : MKind) (cfg : BuildCfg) (events : List LEvent) :
    Option GBSt :=
  match runEvents k cfg initGBSt events with
  | none => none
  | some st1 => finishTemplate cfg st1

/-- Modelled from the spec: one generic-argument hook followed by one
witness-table hook per protocol requirement, for each archetype (the
traversal drivers in the layout headers are not part of the source). -/
def genericPairEvents (gens : List (Nat × List Nat)) : List LEvent :=
  (gens.map (fun g => LEvent.genericArg g.1
    :: g.2.map (fun p => LEvent.genericWitness g.1 p))).flatten

/-- Modelled from the spec: the class metadata traversal order of section
4.1 (flags, value witness table, destructor, parent, superclass, address
point, stored-field offsets, method entries, generic pairs); the layout
headers driving it are not part of the source. -/
def classEvents (fields methods : List Nat) (gens : List (Nat × List Nat)) :
    List LEvent :=
  [.flags, .vwTable, .destructor, .parent, .superclass, .notePoint]
    ++ fields.map LEvent.fieldOffset ++ methods.map LEvent.method
    ++ genericPairEvents gens

/-- Modelled from the spec: the struct metadata traversal order of section
4.1 (flags, nominal type descriptor, parent, address point, value witness
table, generic pairs); the layout headers driving it are not part of the
source. -/
def structEvents (gens : List (Nat × List Nat)) : List LEvent :=
  [.flags, .descriptor, .parent, .notePoint, .vwTable] ++ genericPairEvents gens

/-- Modelled from the spec: enums share the struct traversal order. -/
def enumEvents (gens : List (Nat × List Nat)) : List LEvent :=
  structEvents gens

/-- Hooks that produce a field slot (everything except noteAddressPoint). -/
def isSlotEvent : LEvent → Bool
  | .notePoint => false
  | _ => true

/-- Hooks intercepted by the generic builder to record a FillOp. -/
def isFillEvent : LEvent → Bool
  | .genericArg _ => true
  | .genericWitness _ _ => true
  | _ => false

theorem runEvent_shape (k : MKind) (cfg : BuildCfg) (st : GBSt) (e : LEvent)
    (st2 : GBSt) (h : runEvent k cfg st e = some st2) :
    st2.fields.length = st.fields.length + (if isSlotEvent e then 1 else 0) ∧
    st2.addressPoint
      = (if e = LEvent.notePoint then getNextIndexG st else st.addressPoint) ∧
    st2.fillOps = (if isFillEvent e then
        st.fillOps ++ [(st.numGenericWitnesses, getNextIndexG st)]
      else st.fillOps) ∧
    st2.numGenericWitnesses
      = st.numGenericWitnesses + (if isFillEvent e then 1 else 0) := by
  cases e with
  | flags =>
      cases k <;>
        (simp only [runEvent, Option.some.injEq] at h; subst h;
         simp [pushField, isSlotEvent, isFillEvent])
  | vwTable =>
      cases k <;>
        (simp only [runEvent, Option.some.injEq] at h; subst h;
         simp [pushField, isSlotEvent, isFillEvent])
  | destructor =>
      simp only [runEvent, Option.some.injEq] at h; subst h
      simp [pushField, isSlotEvent, isFillEvent]
  | parent =>
      cases k <;>
        (simp only [runEvent, Option.some.injEq] at h; subst h;
         simp [pushField, isSlotEvent, isFillEvent])
  | superclass =>
      simp only [runEvent, Option.some.injEq] at h; subst h
      simp [pushField, isSlotEvent, isFillEvent]
  | descriptor =>
      simp only [runEvent, Option.some.injEq] at h; subst h
      simp [pushField, isSlotEvent, isFillEvent]
  | fieldOffset f =>
      simp only [runEvent, Option.some.injEq] at h; subst h
      simp [pushField, isSlotEvent, isFillEvent]
  | method m =>
      simp only [runEvent] at h
      cases hm : cfg.finalOverriders m with
      | none => rw [hm] at h; simp at h
      | some g =>
          rw [hm] at h
          simp only [Option.some.injEq] at h; subst h
          simp [pushField, isSlotEvent, isFillEvent]
  | genericArg a =>
      simp only [runEvent, Option.some.injEq] at h; subst h
      simp [pushField, isSlotEvent, isFillEvent]
  | genericWitness a p =>
      simp only [runEvent, Option.some.injEq] at h; subst h
      simp [pushField, isSlotEvent, isFillEvent]
  | notePoint =>
      simp only [runEvent, Option.some.injEq] at h; subst h
      simp [isSlotEvent, isFillEvent]

theorem runEvents_append (k : MKind) (cfg : BuildCfg) (xs ys : List LEvent) :
    ∀ st : GBSt, runEvents k cfg st (xs ++ ys)
      = match runEvents k cfg st xs with
        | none => none
        | some st1 => runEvents k cfg st1 ys := by
  induction xs with
  | nil => intro st; simp [runEvents]
  | cons x rest ih =>
      intro st
      simp only [List.cons_append, runEvents]
      cases runEvent k cfg st x with
      | none => rfl
      | some st2 => exact ih st2

theorem runEvents_shape (k : MKind) (cfg : BuildCfg) :
    ∀ (evs : List LEvent) (st st2 : GBSt),
    runEvents k cfg st evs = some st2 →
    st2.fields.length = st.fields.length + evs.countP isSlotEvent ∧
    st2.numGenericWitnesses
      = st.numGenericWitnesses + evs.countP isFillEvent ∧
    st2.fillOps.length = st.fillOps.length + evs.countP isFillEvent ∧
    st2.fillOps.map Prod.fst = st.fillOps.map Prod.fst
      ++ List.range' st.numGenericWitnesses (evs.countP isFillEvent) := by
  intro evs
  induction evs with
  | nil =>
      intro st st2 h
      simp only [runEvents, Option.some.injEq] at h; subst h
      simp [List.countP_nil, List.range']
  | cons e rest ih =>
      intro st st2 h
      simp only [runEvents] at h
      cases he : runEvent k cfg st e with
      | none => rw [he] at h; simp at h
      | some st1 =>
          rw [he] at h
          obtain ⟨hlen, _, hfo, hng⟩ := runEvent_shape k cfg st e st1 he
          obtain ⟨ihlen, ihng, ihfl, ihfst⟩ := ih st1 st2 h
          simp only [List.countP_cons]
          refine ⟨?_, ?_, ?_, ?_⟩
          · rw [ihlen, hlen]
            cases isSlotEvent e <;> (simp; try omega)
          · rw [ihng, hng]
            cases isFillEvent e <;> (simp; try omega)
          · rw [ihfl, hfo]
            cases isFillEvent e <;> (simp; try omega)
          · cases hf : isFillEvent e with
            | false =>
                simp only [hf, Bool.false_eq_true, if_false] at hfo hng
                rw [ihfst, hfo, hng]
                simp [hf]
            | true =>
                simp only [hf, eq_self_iff_true, if_true] at hfo hng
                rw [ihfst, hfo, hng, List.map_append, List.append_assoc]
                simp only [hf, eq_self_iff_true, if_true, List.map_cons,
                  List.map_nil, List.singleton_append]
                congr 1

theorem runEvents_addressPoint_free (k : MKind) (cfg : BuildCfg) :
    ∀ (evs : List LEvent) (st st2 : GBSt),
    runEvents k cfg st evs = some st2 → LEvent.notePoint ∉ evs →
    st2.addressPoint = st.addressPoint := by
  intro evs
  induction evs with
  | nil =>
      intro st st2 h _
      simp only [runEvents, Option.some.injEq] at h; subst h; rfl
  | cons e rest ih =>
      intro st st2 h hmem
      simp only [runEvents] at h
      cases he : runEvent k cfg st e with
      | none => rw [he] at h; simp at h
      | some st1 =>
          rw [he] at h
          obtain ⟨_, hap, _, _⟩ := runEvent_shape k cfg st e st1 he
          have hne : e ≠ LEvent.notePoint := fun hc => hmem (hc ▸ List.mem_cons_self e rest)
          rw [if_neg hne] at hap
          rw [ih st1 st2 h (fun hc => hmem (List.mem_cons_of_mem e hc)), hap]

theorem take_five_head (a b c d e : Cst) (l : List Cst) :
    List.take 5 ([a, b, c, d, e] ++ l) = [a, b, c, d, e] := rfl

theorem finishTemplate_spec (cfg : BuildCfg) (st1 st : GBSt)
    (h : finishTemplate cfg st1 = some st)
    (hge : TemplateHeaderFieldCount ≤ st1.fields.length) :
    st.fillOps = st1.fillOps ∧
    st.numGenericWitnesses = st1.numGenericWitnesses ∧
    st.addressPoint = st1.addressPoint ∧
    st.fields.length = st1.fields.length
      + (if st1.hasDependentVWT then cfg.depPattern.length else 0) ∧
    st.fields.take TemplateHeaderFieldCount
      = [Cst.fillFnPtr,
         Cst.int32 (((st1.fields.length
              + (if st1.hasDependentVWT then cfg.depPattern.length else 0)
              - TemplateHeaderFieldCount) * cfg.wordSize) % 2 ^ 32),
         Cst.int16 (st1.numGenericWitnesses % 2 ^ 16),
         Cst.int16 ((st1.addressPoint * cfg.wordSize) % 2 ^ 16),
         Cst.privateData] := by
  obtain ⟨f1, fo1, ng1, ap1, dep1, dv1⟩ := st1
  unfold finishTemplate at h
  simp only [TemplateHeaderFieldCount] at hge ⊢
  cases dep1 with
  | false =>
      simp only [Bool.false_eq_true, if_false] at h ⊢
      by_cases hz : ap1 = 0
      · rw [if_pos hz] at h; simp at h
      · rw [if_neg hz] at h
        simp only [Option.some.injEq] at h
        subst h
        refine ⟨rfl, rfl, rfl, ?_, ?_⟩
        · dsimp only [TemplateHeaderFieldCount]
          simp only [List.length_append, List.length_cons, List.length_nil,
            List.length_drop]
          omega
        · dsimp only [TemplateHeaderFieldCount]
          rw [take_five_head]
          dsimp only [getNextIndexG, TemplateHeaderFieldCount]
          simp
  | true =>
      simp only [if_true] at h ⊢
      by_cases hz : ap1 = 0
      · rw [if_pos hz] at h; simp at h
      · rw [if_neg hz] at h
        simp only [Option.some.injEq] at h
        subst h
        refine ⟨rfl, rfl, rfl, ?_, ?_⟩
        · dsimp only [TemplateHeaderFieldCount]
          simp only [List.length_append, List.length_cons, List.length_nil,
            List.length_drop]
          omega
        · dsimp only [TemplateHeaderFieldCount]
          rw [take_five_head]
          dsimp only [getNextIndexG, TemplateHeaderFieldCount]
          simp [List.length_append]

theorem runEvents_init_length (k : MKind) (cfg : BuildCfg) (evs : List LEvent)
    (st1 : GBSt) (h : runEvents k cfg initGBSt evs = some st1) :
    st1.fields.length = TemplateHeaderFieldCount + evs.countP isSlotEvent := by
  have := (runEvents_shape k cfg evs initGBSt st1 h).1
  simpa [initGBSt] using this

/-- C7: for every template build that completes, the number of recorded
FillOps equals the number of generic-argument hook invocations plus
generic-witness-table hook invocations (exactly one FillOp per invocation,
no duplicate, no omission), and the source argument indices of the
recorded FillOps are assigned sequentially from zero. -/
theorem c7_fill_operations (k : MKind) (cfg : BuildCfg) (evs : List LEvent)
    (st : GBSt) (h : buildTemplate k cfg evs = some st) :
    st.fillOps.length = evs.countP isFillEvent ∧
    st.fillOps.map Prod.fst = List.range st.fillOps.length := by
  unfold buildTemplate at h
  cases hr : runEvents k cfg initGBSt evs with
  | none => rw [hr] at h; simp at h
  | some st1 =>
      rw [hr] at h
      have hfin : finishTemplate cfg st1 = some st := h
      have hge : TemplateHeaderFieldCount ≤ st1.fields.length := by
        rw [runEvents_init_length k cfg evs st1 hr]; omega
      obtain ⟨hfo, _, _, _, _⟩ := finishTemplate_spec cfg st1 st hfin hge
      obtain ⟨_, _, hfl, hfst⟩ := runEvents_shape k cfg evs initGBSt st1 hr
      simp only [initGBSt, List.length_nil, List.map_nil, Nat.zero_add,
        List.nil_append] at hfl hfst
      constructor
      · rw [hfo, hfl]
      · rw [hfo, hfst, hfl, List.range_eq_range']


/-- External inputs for the concrete template builds: 8-byte words, an
independent value witness table, no method overriders needed. -/
def cfgW : BuildCfg := ⟨8, false, 11, 12, 13, none, none, [], fun _ => none⟩

/-- The template built for a generic struct with one archetype carrying one
conformance requirement. -/
def stW7 : GBSt :=
  ⟨[Cst.fillFnPtr, Cst.int32 48, Cst.int16 2, Cst.int16 24, Cst.privateData,
    Cst.kindTag 1, Cst.nullPtr, Cst.nullPtr, Cst.addrOf 11, Cst.nullPtr,
    Cst.nullPtr],
   [(0, 4), (1, 5)], 2, 3, false, 0⟩

/-- C7 witness: the struct template with one generic argument carrying one
conformance records exactly two FillOps, with source indices 0 and 1. -/
theorem c7_fill_operations_witness :
    buildTemplate MKind.structKind cfgW (structEvents [(0, [5])]) = some stW7 ∧
    stW7.fillOps.length = (structEvents [(0, [5])]).countP isFillEvent ∧
    stW7.fillOps.map Prod.fst = List.range stW7.fillOps.length :=
  ⟨rfl, (c7_fill_operations MKind.structKind cfgW (structEvents [(0, [5])])
      stW7 rfl).1,
    (c7_fill_operations MKind.structKind cfgW (structEvents [(0, [5])])
      stW7 rfl).2⟩

theorem get_of_take_five (l : List Cst) (a b c d e : Cst)
    (h : l.take 5 = [a, b, c, d, e]) :
    l.get? 1 = some b ∧ l.get? 3 = some d := by
  have hl := List.take_append_drop 5 l
  rw [h] at hl
  rw [← hl]
  exact ⟨rfl, rfl⟩

/-- C6: in a completed template whose traversal notes the address point
once, with no further note after it, the 16-bit address-point header field
(the fourth header slot) holds exactly the number of post-header slots laid
out before the note times the word size, and the 32-bit size header field
(the second header slot) holds exactly the final post-header slot count
times the word size, provided neither product overflows its field. -/
theorem c6_header_offsets (k : MKind) (cfg : BuildCfg) (pre post : List LEvent)
    (st : GBSt) (hpost : LEvent.notePoint ∉ post)
    (h : buildTemplate k cfg (pre ++ LEvent.notePoint :: post) = some st)
    (hap : pre.countP isSlotEvent * cfg.wordSize < 2 ^ 16)
    (hsz : (st.fields.length - TemplateHeaderFieldCount) * cfg.wordSize
      < 2 ^ 32) :
    st.fields.get? 3
      = some (Cst.int16 (pre.countP isSlotEvent * cfg.wordSize)) ∧
    st.fields.get? 1
      = some (Cst.int32
          ((st.fields.length - TemplateHeaderFieldCount) * cfg.wordSize)) := by
  unfold buildTemplate at h
  rw [runEvents_append k cfg pre (LEvent.notePoint :: post) initGBSt] at h
  cases hp : runEvents k cfg initGBSt pre with
  | none => rw [hp] at h; simp at h
  | some stp =>
      rw [hp] at h
      have h3 : (match runEvents k cfg
            { stp with addressPoint := getNextIndexG stp } post with
          | none => none
          | some st1 => finishTemplate cfg st1) = some st := h
      cases hq : runEvents k cfg
          { stp with addressPoint := getNextIndexG stp } post with
      | none => rw [hq] at h3; simp at h3
      | some stq =>
          rw [hq] at h3
          have hfin : finishTemplate cfg stq = some st := h3
          have hlp : stp.fields.length
              = TemplateHeaderFieldCount + pre.countP isSlotEvent :=
            runEvents_init_length k cfg pre stp hp
          have hlq := (runEvents_shape k cfg post _ stq hq).1
          dsimp only at hlq
          have hge : TemplateHeaderFieldCount ≤ stq.fields.length := by
            rw [hlq, hlp]; omega
          obtain ⟨_, _, hap1, hlen, htake⟩ :=
            finishTemplate_spec cfg stq st hfin hge
          have hapv : stq.addressPoint = pre.countP isSlotEvent := by
            have hfree := runEvents_addressPoint_free k cfg post _ stq hq hpost
            dsimp only at hfree
            rw [hfree]
            dsimp only [getNextIndexG]
            rw [hlp]
            dsimp only [TemplateHeaderFieldCount]
            omega
          obtain ⟨hg1, hg3⟩ := get_of_take_five st.fields _ _ _ _ _ htake
          constructor
          · rw [hg3, hapv, Nat.mod_eq_of_lt hap]
          · rw [hg1]
            have harg : stq.fields.length
                + (if stq.hasDependentVWT then cfg.depPattern.length else 0)
                - TemplateHeaderFieldCount
                = st.fields.length - TemplateHeaderFieldCount := by
              rw [hlen]
            rw [harg, Nat.mod_eq_of_lt hsz]

/-- C6 witness: the struct template of stW7 carries byte offset 24 for the
address point (slot 3 after the header, 8-byte words) and byte size 48
(6 post-header slots). -/
theorem c6_header_offsets_witness :
    stW7.fields.get? 3 = some (Cst.int16 24) ∧
    stW7.fields.get? 1 = some (Cst.int32 48) :=
  c6_header_offsets MKind.structKind cfgW
    [LEvent.flags, LEvent.descriptor, LEvent.parent]
    [LEvent.vwTable, LEvent.genericArg 0, LEvent.genericWitness 0 5]
    stW7 (by decide) rfl (by decide) (by decide)

/-- C5 (amended): every completed template starts with exactly the 5 header
fields in the fixed order fill-function pointer, metadata size, argument
count, address-point offset, private data; the fill-function pointer is
word-sized and the private block is 8 zero-initialized words, but the size
field is a 32-bit field and the argument-count and address-point fields are
16-bit fields, so the header fields are not all machine-word-sized. -/
theorem c5_template_header (k : MKind) (cfg : BuildCfg) (evs : List LEvent)
    (st : GBSt) (h : buildTemplate k cfg evs = some st) :
    st.fields.take TemplateHeaderFieldCount
      = [Cst.fillFnPtr,
         Cst.int32 (((st.fields.length - TemplateHeaderFieldCount)
            * cfg.wordSize) % 2 ^ 32),
         Cst.int16 (st.numGenericWitnesses % 2 ^ 16),
         Cst.int16 ((st.addressPoint * cfg.wordSize) % 2 ^ 16),
         Cst.privateData] ∧
    (st.fields.take TemplateHeaderFieldCount).map (cstByteSize cfg.wordSize)
      = [cfg.wordSize, 4, 2, 2, 8 * cfg.wordSize] := by
  unfold buildTemplate at h
  cases hr : runEvents k cfg initGBSt evs with
  | none => rw [hr] at h; simp at h
  | some st1 =>
      rw [hr] at h
      have hfin : finishTemplate cfg st1 = some st := h
      have hge : TemplateHeaderFieldCount ≤ st1.fields.length := by
        rw [runEvents_init_length k cfg evs st1 hr]; omega
      obtain ⟨_, hng, hap1, hlen, htake⟩ :=
        finishTemplate_spec cfg st1 st hfin hge
      have harg : st1.fields.length
          + (if st1.hasDependentVWT then cfg.depPattern.length else 0)
          - TemplateHeaderFieldCount
          = st.fields.length - TemplateHeaderFieldCount := by
        rw [hlen]
      constructor
      · rw [htake, harg, hng, hap1]
      · rw [htake]
        rfl

/-- C5 witness: the header of stW7 as extracted by the amended theorem. -/
theorem c5_template_header_witness :
    stW7.fields.take TemplateHeaderFieldCount
      = [Cst.fillFnPtr,
         Cst.int32 (((stW7.fields.length - TemplateHeaderFieldCount)
            * cfgW.wordSize) % 2 ^ 32),
         Cst.int16 (stW7.numGenericWitnesses % 2 ^ 16),
         Cst.int16 ((stW7.addressPoint * cfgW.wordSize) % 2 ^ 16),
         Cst.privateData] :=
  (c5_template_header MKind.structKind cfgW (structEvents [(0, [5])])
    stW7 rfl).1

/-- C5 counterexample to the claim as stated: in a concretely built struct
template with 8-byte words, the five header fields are the fill-function
pointer, a 32-bit size 40, a 16-bit argument count 1, a 16-bit
address-point offset 24 and the 8-word private block, whose byte sizes are
8, 4, 2, 2 and 64: they are not all machine-word-sized. -/
theorem c5_header_not_word_sized_cx :
    (buildTemplate MKind.structKind cfgW (structEvents [(0, [])])).map
        (fun st => st.fields.take TemplateHeaderFieldCount)
      = some [Cst.fillFnPtr, Cst.int32 40, Cst.int16 1, Cst.int16 24,
          Cst.privateData] ∧
    (buildTemplate MKind.structKind cfgW (structEvents [(0, [])])).map
        (fun st => (st.fields.take TemplateHeaderFieldCount).map
          (cstByteSize cfgW.wordSize))
      = some [8, 4, 2, 2, 64] ∧
    ¬ (∀ c ∈ [Cst.fillFnPtr, Cst.int32 40, Cst.int16 1, Cst.int16 24,
          Cst.privateData], cstByteSize cfgW.wordSize c = cfgW.wordSize) :=
  ⟨rfl, rfl, by decide⟩


/-! Embedding of emitParentMetadataRef. -/

/-- Per-event view of the class metadata scanner as seen by
FindClassParentIndex: the parent hook for the target class matches, every
other add-hook merely advances, and noteAddressPoint is recorded. -/
def scanOfEvent : LEvent → ScanStep
  | .notePoint => .notePoint
  | .parent => .slot true
  | _ => .slot false

/-- The scan FindClassParentIndex performs over the class layout. -/
def classParentScan (fields methods : List Nat)
    (gens : List (Nat × List Nat)) : List ScanStep :=
  (classEvents fields methods gens).map scanOfEvent

/-- A nominal type declaration as dispatched on by emitParentMetadataRef
(protocols are unreachable there and are omitted). -/
inductive NTDecl where
  | classDecl (fields methods : List Nat) (gens : List (Nat × List Nat))
  | structDecl (gens : List (Nat × List Nat))
  | enumDecl (gens : List (Nat × List Nat))
  deriving Repr

/-- emitParentMetadataRef from GenMeta.cpp, reduced to the slot index it
loads from (relative to the metadata pointer): for a class it replays the
class layout through FindClassParentIndex::getTargetIndex; for a struct or
an enum it loads from the fixed index 2 (the third field) without any
layout replay. -/
def emitParentMetadataRefIndex : NTDecl → Option Int
  | .classDecl fs ms gs => getTargetIndex (classParentScan fs ms gs)
  | .structDecl _ => some 2
  | .enumDecl _ => some 2

/-- C10: the parent lookup for every struct and every enum declaration is
the fixed slot index 2, independent of the declaration's generic
signature, with no traversal replayed; only the class case goes through
the field locator over the class layout, which for the modelled class
order yields the offset -2 rather than 2. -/
theorem c10_parent_lookup (fs ms : List Nat) (gs gs2 : List (Nat × List Nat)) :
    emitParentMetadataRefIndex (.structDecl gs) = some 2 ∧
    emitParentMetadataRefIndex (.enumDecl gs) = some 2 ∧
    emitParentMetadataRefIndex (.structDecl gs)
      = emitParentMetadataRefIndex (.structDecl gs2) ∧
    emitParentMetadataRefIndex (.classDecl fs ms gs)
      = getTargetIndex (classParentScan fs ms gs) ∧
    emitParentMetadataRefIndex (.classDecl [] [] []) = some (-2) :=
  ⟨rfl, rfl, rfl, rfl, rfl⟩


/-! Embedding of ClassMetadataBuilderBase::computeFinalOverriders and
addMethod. -/

/-- One class member function as seen by the final-overrider computation:
its identity and the identity of the declaration it directly overrides.
The class-hierarchy walk (target class first, then superclasses to the
root, members of each class in order) is flattened into one processing
list. -/
structure MDecl where
  id : Nat
  over : Option Nat
  deriving DecidableEq, Repr

/-- The FinalOverriders DenseMap, modelled extensionally. -/
def FinalMap : Type := Nat → Option Nat

/-- Processing of one member inside computeFinalOverriders: operator[] on
the member's own id default-constructs a null entry which is immediately
replaced by the member itself when no final overrider is recorded yet
(collapsed here to an overwrite with the looked-up-or-self value, which is
identical because present entries are kept); then, if the member directly
overrides something, insert (no overwrite) maps the overridden declaration
to the member's final overrider. -/
def foStep (m : FinalMap) (fn : MDecl) : FinalMap :=
  let f := (m fn.id).getD fn.id
  let m1 : FinalMap := fun k => if k = fn.id then some f else m k
  match fn.over with
  | none => m1
  | some t => fun k => if k = t then some ((m1 t).getD f) else m1 k

/-- ClassMetadataBuilderBase::computeFinalOverriders over the flattened
hierarchy walk. -/
def computeFinalOverriders (L : List MDecl) : FinalMap :=
  L.foldl foStep (fun _ => none)

/-- The map after processing the first n members only. -/
def overridersUpTo (L : List MDecl) (n : Nat) : FinalMap :=
  (L.take n).foldl foStep (fun _ => none)

/-- ClassMetadataBuilderBase::addMethod, reduced to its Fields effect: look
the method up in the FinalOverriders map (the source asserts it is found)
and push the final overrider's function address; the witness-table-offset
global update for target-class methods has no bearing on the slot value
and is omitted. -/
def classAddMethod (m : FinalMap) (flds : List Cst) (fn : Nat) :
    Option (List Cst) :=
  match m fn with
  | none => none
  | some g => some (flds ++ [Cst.funcAddr g])

/-- Does the member at index i directly override the member at index j? -/
def directB (L : List MDecl) (i j : Nat) : Bool :=
  match L.get? i, L.get? j with
  | some di, some dj => di.over == some dj.id
  | _, _ => false

/-- The id of the member at index j (0 when out of range). -/
def idAt (L : List MDecl) (j : Nat) : Nat :=
  ((L.get? j).map MDecl.id).getD 0

/-- The most-derived transitive overrider of the member at index j,
obtained by repeatedly stepping to the (unique) direct overrider; direct
overriders live at strictly smaller indices because the walk processes
derived classes first. -/
def chainTop (L : List MDecl) (j : Nat) : Nat :=
  match h : (List.range j).find? (fun i => directB L i j) with
  | some i => chainTop L i
  | none => j
termination_by j
decreasing_by
  exact List.mem_range.mp (List.mem_of_find?_eq_some h)

/-- Transitive overriding between member indices: OverPath L k j holds when
the member at index k is reached from the member at index j by walking
direct-overrider edges. -/
inductive OverPath (L : List MDecl) : Nat → Nat → Prop where
  | refl (j : Nat) : OverPath L j j
  | step {i j k : Nat} : directB L i j = true → OverPath L k i → OverPath L k j

theorem chainTop_unfold (L : List MDecl) (j : Nat) :
    chainTop L j
      = match (List.range j).find? (fun i => directB L i j) with
        | some i => chainTop L i
        | none => j := by
  conv_lhs => unfold chainTop
  split <;> rename_i hh
  · split <;> rename_i hh2
    · rw [hh] at hh2
      injection hh2 with e
      rw [e]
    · rw [hh] at hh2
      exact absurd hh2 (by simp)
  · split <;> rename_i hh2
    · rw [hh] at hh2
      exact absurd hh2 (by simp)
    · rfl

theorem overPath_chainTop (L : List MDecl) : ∀ j, OverPath L (chainTop L j) j
  | j => by
    rw [chainTop_unfold]
    cases hfind : (List.range j).find? (fun i => directB L i j) with
    | none => exact OverPath.refl j
    | some i =>
        have hi : i < j := List.mem_range.mp (List.mem_of_find?_eq_some hfind)
        have hd : directB L i j = true := by
          simpa using List.find?_some hfind
        exact OverPath.step hd (overPath_chainTop L i)
termination_by j => j

theorem chainTop_find_none (L : List MDecl) :
    ∀ j, (List.range (chainTop L j)).find?
      (fun i => directB L i (chainTop L j)) = none
  | j => by
    rw [chainTop_unfold]
    cases hfind : (List.range j).find? (fun i => directB L i j) with
    | none => exact hfind
    | some i =>
        have hi : i < j := List.mem_range.mp (List.mem_of_find?_eq_some hfind)
        exact chainTop_find_none L i
termination_by j => j


theorem lt_of_get?_eq_some {L : List MDecl} {j : Nat} {dj : MDecl}
    (hj : L.get? j = some dj) : j < L.length := by
  by_contra hc
  rw [List.get?_eq_none.mpr (Nat.le_of_not_lt hc)] at hj
  exact absurd hj (by simp)

theorem directB_eq_true_iff (L : List MDecl) (i j : Nat) :
    directB L i j = true
      ↔ ∃ di dj, L.get? i = some di ∧ L.get? j = some dj
          ∧ di.over = some dj.id := by
  unfold directB
  cases hi : L.get? i <;> cases hj : L.get? j <;> simp [hi, hj]

theorem direct_lt (L : List MDecl)
    (H1 : ∀ i j di dj, L.get? i = some di → L.get? j = some dj →
      di.id = dj.id → i = j)
    (H3 : ∀ i di t, L.get? i = some di → di.over = some t →
      ∃ k dk, i < k ∧ L.get? k = some dk ∧ dk.id = t)
    {i j : Nat} (h : directB L i j = true) : i < j := by
  obtain ⟨di, dj, hgi, hgj, hov⟩ := (directB_eq_true_iff L i j).mp h
  obtain ⟨k, dk, hik, hgk, hkid⟩ := H3 i di dj.id hgi hov
  have hkj := H1 k j dk dj hgk hgj hkid
  omega

theorem find_direct_some (L : List MDecl)
    (H1 : ∀ i j di dj, L.get? i = some di → L.get? j = some dj →
      di.id = dj.id → i = j)
    (H2 : ∀ i1 i2 j, directB L i1 j = true → directB L i2 j = true → i1 = i2)
    (H3 : ∀ i di t, L.get? i = some di → di.over = some t →
      ∃ k dk, i < k ∧ L.get? k = some dk ∧ dk.id = t)
    {n j : Nat} (h : directB L n j = true) :
    (List.range j).find? (fun i => directB L i j) = some n := by
  have hn : n < j := direct_lt L H1 H3 h
  have hs : ((List.range j).find? (fun i => directB L i j)).isSome :=
    List.find?_isSome.mpr ⟨n, List.mem_range.mpr hn, h⟩
  obtain ⟨i0, hi0⟩ := Option.isSome_iff_exists.mp hs
  have hp : directB L i0 j = true := by simpa using List.find?_some hi0
  rw [hi0, H2 i0 n j hp h]

theorem chainTop_direct (L : List MDecl)
    (H1 : ∀ i j di dj, L.get? i = some di → L.get? j = some dj →
      di.id = dj.id → i = j)
    (H2 : ∀ i1 i2 j, directB L i1 j = true → directB L i2 j = true → i1 = i2)
    (H3 : ∀ i di t, L.get? i = some di → di.over = some t →
      ∃ k dk, i < k ∧ L.get? k = some dk ∧ dk.id = t)
    {n j : Nat} (h : directB L n j = true) :
    chainTop L j = chainTop L n := by
  rw [chainTop_unfold, find_direct_some L H1 H2 H3 h]

theorem chainTop_of_no_direct (L : List MDecl) {j : Nat}
    (h : ∀ i, i < j → directB L i j = false) : chainTop L j = j := by
  rw [chainTop_unfold, List.find?_eq_none.mpr]
  intro x hx
  rw [h x (List.mem_range.mp hx)]
  simp

theorem chainTop_no_direct (L : List MDecl)
    (H1 : ∀ i j di dj, L.get? i = some di → L.get? j = some dj →
      di.id = dj.id → i = j)
    (H3 : ∀ i di t, L.get? i = some di → di.over = some t →
      ∃ k dk, i < k ∧ L.get? k = some dk ∧ dk.id = t)
    (j : Nat) : ∀ i, directB L i (chainTop L j) = false := by
  intro i
  by_contra hc
  have hd : directB L i (chainTop L j) = true := by
    cases hb : directB L i (chainTop L j)
    · exact absurd hb hc
    · rfl
  have hlt : i < chainTop L j := direct_lt L H1 H3 hd
  have hnone := chainTop_find_none L j
  have := List.find?_eq_none.mp hnone i (List.mem_range.mpr hlt)
  exact this hd

theorem overridersUpTo_succ_lt (L : List MDecl) (n : Nat) (fn : MDecl)
    (hg : L.get? n = some fn) :
    overridersUpTo L (n + 1) = foStep (overridersUpTo L n) fn := by
  unfold overridersUpTo
  rw [List.take_succ, ← List.get?_eq_getElem?, hg, List.foldl_append]
  rfl

theorem overridersUpTo_succ_ge (L : List MDecl) (n : Nat)
    (hn : L.length ≤ n) :
    overridersUpTo L (n + 1) = overridersUpTo L n := by
  unfold overridersUpTo
  rw [List.take_succ, ← List.get?_eq_getElem?, List.get?_eq_none.mpr hn, List.foldl_append]
  rfl

theorem computeFinalOverriders_eq_upTo (L : List MDecl) :
    computeFinalOverriders L = overridersUpTo L L.length := by
  unfold computeFinalOverriders overridersUpTo
  rw [List.take_length]


theorem foStep_apply (m : FinalMap) (fn : MDecl) (k : Nat) :
    foStep m fn k =
      match fn.over with
      | none => if k = fn.id then some ((m fn.id).getD fn.id) else m k
      | some t =>
          if k = t then
            some ((if t = fn.id then some ((m fn.id).getD fn.id)
                else m t).getD ((m fn.id).getD fn.id))
          else if k = fn.id then some ((m fn.id).getD fn.id) else m k := by
  unfold foStep
  cases fn.over <;> rfl

theorem foStep_apply_none (m : FinalMap) (fn : MDecl) (k : Nat)
    (h : fn.over = none) :
    foStep m fn k = if k = fn.id then some ((m fn.id).getD fn.id) else m k := by
  rw [foStep_apply, h]

theorem foStep_apply_some (m : FinalMap) (fn : MDecl) (k t : Nat)
    (h : fn.over = some t) :
    foStep m fn k =
      if k = t then
        some ((if t = fn.id then some ((m fn.id).getD fn.id)
            else m t).getD ((m fn.id).getD fn.id))
      else if k = fn.id then some ((m fn.id).getD fn.id) else m k := by
  rw [foStep_apply, h]

theorem overriders_invariant (L : List MDecl)
    (H1 : ∀ i j di dj, L.get? i = some di → L.get? j = some dj →
      di.id = dj.id → i = j)
    (H2 : ∀ i1 i2 j, directB L i1 j = true → directB L i2 j = true → i1 = i2)
    (H3 : ∀ i di t, L.get? i = some di → di.over = some t →
      ∃ k dk, i < k ∧ L.get? k = some dk ∧ dk.id = t) :
    ∀ (n j : Nat) (dj : MDecl), L.get? j = some dj →
    ((j < n ∨ ∃ i, i < n ∧ directB L i j = true) →
      overridersUpTo L n dj.id = some (idAt L (chainTop L j))) ∧
    (¬ (j < n ∨ ∃ i, i < n ∧ directB L i j = true) →
      overridersUpTo L n dj.id = none) := by
  intro n
  induction n with
  | zero =>
      intro j dj hj
      constructor
      · rintro (h | ⟨i, hi, _⟩) <;> omega
      · intro _; rfl
  | succ n ih =>
      intro j dj hj
      by_cases hn : n < L.length
      case neg =>
          have hup := overridersUpTo_succ_ge L n (Nat.le_of_not_lt hn)
          have hcond : (j < n + 1 ∨ ∃ i, i < n + 1 ∧ directB L i j = true)
              ↔ (j < n ∨ ∃ i, i < n ∧ directB L i j = true) := by
            have hjl : j < L.length := lt_of_get?_eq_some hj
            constructor
            · rintro (h | ⟨i, hi, hd⟩)
              · left; omega
              · obtain ⟨di, _, hgi, _, _⟩ := (directB_eq_true_iff L i j).mp hd
                have hil : i < L.length := lt_of_get?_eq_some hgi
                exact Or.inr ⟨i, by omega, hd⟩
            · rintro (h | ⟨i, hi, hd⟩)
              · left; omega
              · exact Or.inr ⟨i, by omega, hd⟩
          obtain ⟨ih1, ih2⟩ := ih j dj hj
          rw [hup]
          exact ⟨fun h => ih1 (hcond.mp h),
                 fun h => ih2 (fun hc => h (hcond.mpr hc))⟩
      case pos =>
          obtain ⟨fn, hgn⟩ : ∃ fn, L.get? n = some fn :=
            ⟨_, List.get?_eq_get hn⟩
          rw [overridersUpTo_succ_lt L n fn hgn]
          have hidn : idAt L n = fn.id := by
            unfold idAt
            rw [hgn]
            rfl
          have hf : ((overridersUpTo L n) fn.id).getD fn.id
              = idAt L (chainTop L n) := by
            obtain ⟨ih1n, ih2n⟩ := ih n fn hgn
            by_cases hex : ∃ i, i < n ∧ directB L i n = true
            · rw [ih1n (Or.inr hex)]; rfl
            · have hnone : overridersUpTo L n fn.id = none := by
                apply ih2n
                rintro (h | h)
                · omega
                · exact hex h
              rw [hnone]
              have hct : chainTop L n = n := by
                apply chainTop_of_no_direct
                intro i hi
                cases hb : directB L i n
                · rfl
                · exact absurd ⟨i, hi, hb⟩ hex
              rw [hct, hidn]
              rfl
          by_cases hjn : j = n
          case pos =>
              subst hjn
              have hdj : dj = fn := Option.some.inj (hj.symm.trans hgn)
              subst hdj
              constructor
              · intro _
                cases hov : dj.over with
                | none =>
                    rw [foStep_apply_none _ _ _ hov, if_pos rfl, hf]
                | some t =>
                    have hnt : ¬ (dj.id = t) := by
                      intro he
                      obtain ⟨k, dk, hk, hgk, hkid⟩ := H3 j dj t hgn hov
                      have := H1 k j dk dj hgk hgn (by rw [hkid, he])
                      omega
                    rw [foStep_apply_some _ _ _ _ hov, if_neg hnt,
                      if_pos rfl, hf]
              · intro hcon
                exact absurd (Or.inl (by omega)) hcon
          case neg =>
              have hkey : ¬ (dj.id = fn.id) :=
                fun he => hjn (H1 j n dj fn hj hgn he)
              cases hov : fn.over with
              | none =>
                  have hstep : foStep (overridersUpTo L n) fn dj.id
                      = overridersUpTo L n dj.id := by
                    rw [foStep_apply_none _ _ _ hov, if_neg hkey]
                  have hdnj : directB L n j = false := by
                    cases hb : directB L n j
                    · rfl
                    · obtain ⟨di, dj2, hgi, hgj2, hov2⟩ :=
                        (directB_eq_true_iff L n j).mp hb
                      have : fn = di := Option.some.inj (hgn.symm.trans hgi)
                      rw [← this, hov] at hov2
                      exact absurd hov2 (by simp)
                  have hcond : (j < n + 1 ∨ ∃ i, i < n + 1 ∧ directB L i j = true)
                      ↔ (j < n ∨ ∃ i, i < n ∧ directB L i j = true) := by
                    constructor
                    · rintro (h | ⟨i, hi, hd⟩)
                      · left; omega
                      · by_cases hin : i = n
                        · rw [hin, hdnj] at hd
                          exact absurd hd (by simp)
                        · exact Or.inr ⟨i, by omega, hd⟩
                    · rintro (h | ⟨i, hi, hd⟩)
                      · left; omega
                      · exact Or.inr ⟨i, by omega, hd⟩
                  obtain ⟨ih1, ih2⟩ := ih j dj hj
                  rw [hstep]
                  exact ⟨fun h => ih1 (hcond.mp h),
                         fun h => ih2 (fun hc => h (hcond.mpr hc))⟩
              | some t =>
                  by_cases hjt : dj.id = t
                  case pos =>
                      have hdnj : directB L n j = true :=
                        (directB_eq_true_iff L n j).mpr
                          ⟨fn, dj, hgn, hj, by rw [hov, hjt]⟩
                      have hnj : n < j := direct_lt L H1 H3 hdnj
                      have hMt : overridersUpTo L n dj.id = none := by
                        apply (ih j dj hj).2
                        rintro (h | ⟨i, hi, hd⟩)
                        · omega
                        · have := H2 i n j hd hdnj
                          omega
                      have htne : ¬ (t = fn.id) := by
                        intro he
                        exact hjn (H1 j n dj fn hj hgn (by rw [hjt, he]))
                      have hct : chainTop L j = chainTop L n :=
                        chainTop_direct L H1 H2 H3 hdnj
                      constructor
                      · intro _
                        rw [foStep_apply_some _ _ _ _ hov, if_pos hjt,
                          if_neg htne, ← hjt, hMt]
                        rw [hct, ← hf]
                        rfl
                      · intro hcon
                        exact absurd (Or.inr ⟨n, by omega, hdnj⟩) hcon
                  case neg =>
                      have hstep : foStep (overridersUpTo L n) fn dj.id
                          = overridersUpTo L n dj.id := by
                        rw [foStep_apply_some _ _ _ _ hov, if_neg hjt,
                          if_neg hkey]
                      have hdnj : directB L n j = false := by
                        cases hb : directB L n j
                        · rfl
                        · obtain ⟨di, dj2, hgi, hgj2, hov2⟩ :=
                            (directB_eq_true_iff L n j).mp hb
                          have hfd : fn = di :=
                            Option.some.inj (hgn.symm.trans hgi)
                          have hdd : dj = dj2 :=
                            Option.some.inj (hj.symm.trans hgj2)
                          rw [← hfd, hov] at hov2
                          have : t = dj2.id := Option.some.inj hov2
                          rw [← hdd] at this
                          exact absurd this.symm hjt
                      have hcond : (j < n + 1 ∨ ∃ i, i < n + 1 ∧ directB L i j = true)
                          ↔ (j < n ∨ ∃ i, i < n ∧ directB L i j = true) := by
                        constructor
                        · rintro (h | ⟨i, hi, hd⟩)
                          · left; omega
                          · by_cases hin : i = n
                            · rw [hin, hdnj] at hd
                              exact absurd hd (by simp)
                            · exact Or.inr ⟨i, by omega, hd⟩
                        · rintro (h | ⟨i, hi, hd⟩)
                          · left; omega
                          · exact Or.inr ⟨i, by omega, hd⟩
                      obtain ⟨ih1, ih2⟩ := ih j dj hj
                      rw [hstep]
                      exact ⟨fun h => ih1 (hcond.mp h),
                             fun h => ih2 (fun hc => h (hcond.mpr hc))⟩

/-- C3: for every method slot, addMethod places the function reference of
the member computed by computeFinalOverriders, and that member is the
most-derived implementation in the whole flattened inheritance walk that
transitively overrides the slot's method: it reaches the method through
direct-override edges and nothing overrides it in turn.  The hypotheses
are the well-formedness of the walk: member identities are unique, a
declaration has at most one direct overrider, and overridden declarations
appear later in the walk (in an ancestor class) than their overriders. -/
theorem c3_final_overrider (L : List MDecl) (flds : List Cst)
    (H1 : ∀ i j di dj, L.get? i = some di → L.get? j = some dj →
      di.id = dj.id → i = j)
    (H2 : ∀ i1 i2 j, directB L i1 j = true → directB L i2 j = true → i1 = i2)
    (H3 : ∀ i di t, L.get? i = some di → di.over = some t →
      ∃ k dk, i < k ∧ L.get? k = some dk ∧ dk.id = t)
    (j : Nat) (dj : MDecl) (hj : L.get? j = some dj) :
    classAddMethod (computeFinalOverriders L) flds dj.id
      = some (flds ++ [Cst.funcAddr (idAt L (chainTop L j))]) ∧
    OverPath L (chainTop L j) j ∧
    (∀ i, directB L i (chainTop L j) = false) := by
  have hjl : j < L.length := lt_of_get?_eq_some hj
  have hmap := (overriders_invariant L H1 H2 H3 L.length j dj hj).1 (Or.inl hjl)
  rw [computeFinalOverriders_eq_upTo]
  refine ⟨?_, overPath_chainTop L j, chainTop_no_direct L H1 H3 j⟩
  unfold classAddMethod
  rw [hmap]

/-- A three-level override chain, flattened most-derived class first: the
member with id 2 overrides id 1, which overrides the root member id 0. -/
def mChain : List MDecl := [⟨2, some 1⟩, ⟨1, some 0⟩, ⟨0, none⟩]

/-- C3 witness: the v-table slot of the grandparent method (id 0) receives
the function reference of the most-derived overrider (id 2). -/
theorem c3_final_overrider_witness :
    classAddMethod (computeFinalOverriders mChain) [] 0
      = some [Cst.funcAddr 2] := by
  have Hw1 : ∀ i j di dj, mChain.get? i = some di → mChain.get? j = some dj →
      di.id = dj.id → i = j := by
    intro i j di dj hgi hgj hid
    have hi := lt_of_get?_eq_some hgi
    have hjj := lt_of_get?_eq_some hgj
    have hi3 : i < 3 := by simpa [mChain] using hi
    have hj3 : j < 3 := by simpa [mChain] using hjj
    interval_cases i <;> interval_cases j <;>
      simp only [mChain, List.get?] at hgi hgj <;>
      first
        | rfl
        | (obtain rfl := Option.some.inj hgi
           obtain rfl := Option.some.inj hgj
           simp at hid)
  have Hw2 : ∀ i1 i2 j, directB mChain i1 j = true →
      directB mChain i2 j = true → i1 = i2 := by
    intro i1 i2 j h1 h2
    obtain ⟨d1, dja, hg1, hgja, ho1⟩ := (directB_eq_true_iff _ _ _).mp h1
    obtain ⟨d2, djb, hg2, hgjb, ho2⟩ := (directB_eq_true_iff _ _ _).mp h2
    have ha := lt_of_get?_eq_some hg1
    have hb := lt_of_get?_eq_some hg2
    have hc := lt_of_get?_eq_some hgja
    have ha3 : i1 < 3 := by simpa [mChain] using ha
    have hb3 : i2 < 3 := by simpa [mChain] using hb
    have hc3 : j < 3 := by simpa [mChain] using hc
    clear ho1 ho2 hg1 hg2 hgja hgjb ha hb hc
    interval_cases i1 <;> interval_cases i2 <;> interval_cases j <;>
      (revert h1 h2; decide)
  have Hw3 : ∀ i di t, mChain.get? i = some di → di.over = some t →
      ∃ k dk, i < k ∧ mChain.get? k = some dk ∧ dk.id = t := by
    intro i di t hgi hov
    have hi := lt_of_get?_eq_some hgi
    have hi3 : i < 3 := by simpa [mChain] using hi
    interval_cases i
    · simp only [mChain, List.get?] at hgi
      obtain rfl := Option.some.inj hgi
      obtain rfl : (1 : Nat) = t := Option.some.inj hov
      exact ⟨1, ⟨1, some 0⟩, by omega, rfl, rfl⟩
    · simp only [mChain, List.get?] at hgi
      obtain rfl := Option.some.inj hgi
      obtain rfl : (0 : Nat) = t := Option.some.inj hov
      exact ⟨2, ⟨0, none⟩, by omega, rfl, rfl⟩
    · simp only [mChain, List.get?] at hgi
      obtain rfl := Option.some.inj hgi
      exact Option.noConfusion hov
  have h := (c3_final_overrider mChain [] Hw1 Hw2 Hw3 2 ⟨0, none⟩ rfl).1
  have h2 : chainTop mChain 2 = chainTop mChain 1 := by
    rw [chainTop_unfold,
      show List.find? (fun i => directB mChain i 2) (List.range 2)
        = some 1 from rfl]
  have h1 : chainTop mChain 1 = chainTop mChain 0 := by
    rw [chainTop_unfold,
      show List.find? (fun i => directB mChain i 1) (List.range 1)
        = some 0 from rfl]
  have h0 : chainTop mChain 0 = 0 := by
    rw [chainTop_unfold,
      show List.find? (fun i => directB mChain i 0) (List.range 0)
        = none from rfl]
  rw [h2, h1, h0] at h
  simpa using h

end GenMeta
